import Mathlib

/-!
Verification of the streaming transcription coordinator of the
voice-to-text repository (`src/src-tauri/src`).

Strings manipulated by the Rust code are modelled as `List Char`
(Rust `char` and Lean `Char` are both Unicode scalar values), and the
byte indices the code computes with `len_utf8` / `str::len` are modelled
with `Char.utf8Size`.  Rust byte slicing of a `&str`, which panics on a
non-boundary index, is modelled by `Option`-valued functions.
-/

namespace VoiceToText

/-- UTF-8 byte length of a string, modelling Rust `str::len`. -/
def byteLen : List Char → Nat
  | [] => 0
  | c :: cs => c.utf8Size + byteLen cs

/-- The first `n` bytes of a string as characters, modelling the prefix part
of Rust byte slicing; `none` when `n` is not a character boundary. -/
def takeBytes : List Char → Nat → Option (List Char)
  | _, 0 => some []
  | [], _ + 1 => none
  | c :: cs, n + 1 =>
    if c.utf8Size ≤ n + 1 then (takeBytes cs (n + 1 - c.utf8Size)).map (c :: ·) else none

/-- Drop the first `n` bytes of a string, modelling Rust `&s[n..]`;
`none` when `n` is not a character boundary (where Rust panics). -/
def dropBytes : List Char → Nat → Option (List Char)
  | s, 0 => some s
  | [], _ + 1 => none
  | c :: cs, n + 1 =>
    if c.utf8Size ≤ n + 1 then dropBytes cs (n + 1 - c.utf8Size) else none

/-- Rust `&s[a..b]`: `none` exactly when Rust would panic. -/
def sliceBytes (s : List Char) (a b : Nat) : Option (List Char) :=
  if a ≤ b then (dropBytes s a).bind (fun t => takeBytes t (b - a)) else none

/-- `n` is a UTF-8 character boundary of `s` (a valid split point). -/
def isBoundary (s : List Char) (n : Nat) : Bool :=
  (dropBytes s n).isSome

/-- From `src/src-tauri/src/lib.rs`: byte length of the common prefix of two
strings, walking `chars()` in lockstep and accumulating `len_utf8`. -/
def stable_prefix_len : List Char → List Char → Nat
  | a :: as, b :: bs => if a = b then a.utf8Size + stable_prefix_len as bs else 0
  | _, _ => 0

/-- Spec-side description (§4.3.1): the longest common code-point prefix,
walked from the start of both strings, stopping at the first mismatch. -/
def lcpChars : List Char → List Char → List Char
  | a :: as, b :: bs => if a = b then a :: lcpChars as bs else []
  | _, _ => []

theorem byteLen_append (p t : List Char) :
    byteLen (p ++ t) = byteLen p + byteLen t := by
  induction p with
  | nil => simp [byteLen]
  | cons c cs ih => simp [byteLen, ih]; omega

theorem byteLen_eq_zero {p : List Char} (h : byteLen p = 0) : p = [] := by
  cases p with
  | nil => rfl
  | cons c cs =>
    have := c.utf8Size_pos
    simp [byteLen] at h
    omega

theorem dropBytes_append (p t : List Char) :
    dropBytes (p ++ t) (byteLen p) = some t := by
  induction p with
  | nil => simp [byteLen, dropBytes]
  | cons c cs ih =>
    have hpos := c.utf8Size_pos
    have hn : c.utf8Size + byteLen cs = (c.utf8Size + byteLen cs - 1) + 1 := by omega
    simp only [byteLen, List.cons_append]
    rw [hn, dropBytes]
    have hle : c.utf8Size ≤ (c.utf8Size + byteLen cs - 1) + 1 := by omega
    rw [if_pos hle]
    have : (c.utf8Size + byteLen cs - 1) + 1 - c.utf8Size = byteLen cs := by omega
    rw [this, ih]

theorem takeBytes_append (p t : List Char) :
    takeBytes (p ++ t) (byteLen p) = some p := by
  induction p with
  | nil => simp [byteLen, takeBytes]
  | cons c cs ih =>
    have hpos := c.utf8Size_pos
    have hn : c.utf8Size + byteLen cs = (c.utf8Size + byteLen cs - 1) + 1 := by omega
    simp only [byteLen, List.cons_append]
    rw [hn, takeBytes]
    have hle : c.utf8Size ≤ (c.utf8Size + byteLen cs - 1) + 1 := by omega
    rw [if_pos hle]
    have : (c.utf8Size + byteLen cs - 1) + 1 - c.utf8Size = byteLen cs := by omega
    rw [this, ih]
    rfl

theorem dropBytes_some {s t : List Char} {n : Nat} (h : dropBytes s n = some t) :
    ∃ p, s = p ++ t ∧ byteLen p = n := by
  induction s generalizing n with
  | nil =>
    cases n with
    | zero =>
      injection h with h
      exact ⟨[], by simp [h], rfl⟩
    | succ m => exact absurd h (by rw [dropBytes]; simp)
  | cons c cs ih =>
    cases n with
    | zero =>
      injection h with h
      exact ⟨[], by simp [h], rfl⟩
    | succ m =>
      rw [dropBytes] at h
      by_cases hle : c.utf8Size ≤ m + 1
      · rw [if_pos hle] at h
        obtain ⟨p, hp, hlen⟩ := ih h
        exact ⟨c :: p, by simp [hp], by simp [byteLen, hlen]; omega⟩
      · rw [if_neg hle] at h
        exact absurd h (by simp)

theorem takeBytes_some {s p : List Char} {n : Nat} (h : takeBytes s n = some p) :
    ∃ t, s = p ++ t ∧ byteLen p = n := by
  induction s generalizing n p with
  | nil =>
    cases n with
    | zero =>
      injection h with h
      exact ⟨[], by simp [← h], by simp [← h, byteLen]⟩
    | succ m => exact absurd h (by rw [takeBytes]; simp)
  | cons c cs ih =>
    cases n with
    | zero =>
      injection h with h
      exact ⟨c :: cs, by simp [← h], by simp [← h, byteLen]⟩
    | succ m =>
      rw [takeBytes] at h
      by_cases hle : c.utf8Size ≤ m + 1
      · rw [if_pos hle] at h
        cases hq : takeBytes cs (m + 1 - c.utf8Size) with
        | none => rw [hq] at h; exact absurd h (by simp)
        | some q =>
          rw [hq] at h
          injection h with h
          obtain ⟨t, ht, hlen⟩ := ih hq
          refine ⟨t, ?_, ?_⟩
          · rw [← h]; simp [ht]
          · rw [← h]; simp [byteLen, hlen]; omega
      · rw [if_neg hle] at h
        exact absurd h (by simp)

theorem stable_prefix_len_eq_lcp (a b : List Char) :
    stable_prefix_len a b = byteLen (lcpChars a b) := by
  induction a generalizing b with
  | nil => cases b <;> simp [stable_prefix_len, lcpChars, byteLen]
  | cons x xs ih =>
    cases b with
    | nil => simp [stable_prefix_len, lcpChars, byteLen]
    | cons y ys =>
      by_cases hxy : x = y
      · simp [stable_prefix_len, lcpChars, hxy, byteLen, ih]
      · simp [stable_prefix_len, lcpChars, hxy, byteLen]

theorem lcpChars_prefix_left (a b : List Char) : ∃ t, a = lcpChars a b ++ t := by
  induction a generalizing b with
  | nil => cases b <;> exact ⟨[], by simp [lcpChars]⟩
  | cons x xs ih =>
    cases b with
    | nil => exact ⟨x :: xs, by simp [lcpChars]⟩
    | cons y ys =>
      by_cases hxy : x = y
      · obtain ⟨t, ht⟩ := ih ys
        exact ⟨t, by simp [lcpChars, hxy]; exact ht⟩
      · exact ⟨x :: xs, by simp [lcpChars, hxy]⟩

theorem lcpChars_comm (a b : List Char) : lcpChars a b = lcpChars b a := by
  induction a generalizing b with
  | nil => cases b <;> simp [lcpChars]
  | cons x xs ih =>
    cases b with
    | nil => simp [lcpChars]
    | cons y ys =>
      by_cases hxy : x = y
      · subst hxy; simp [lcpChars, ih]
      · have hyx : ¬ y = x := fun h => hxy h.symm
        simp [lcpChars, hxy, hyx]

theorem lcpChars_prefix_right (a b : List Char) : ∃ t, b = lcpChars a b ++ t := by
  rw [lcpChars_comm]; exact lcpChars_prefix_left b a

theorem takeBytes_zero (s : List Char) : takeBytes s 0 = some [] := by
  cases s <;> rfl

theorem dropBytes_zero (s : List Char) : dropBytes s 0 = some s := by
  cases s <;> rfl

theorem byteLen_le_of_pref {p s : List Char} (h : ∃ t, s = p ++ t) :
    byteLen p ≤ byteLen s := by
  obtain ⟨t, rfl⟩ := h
  rw [byteLen_append]
  omega

theorem takeBytes_of_pref {p s : List Char} (h : ∃ t, s = p ++ t) :
    takeBytes s (byteLen p) = some p := by
  obtain ⟨t, rfl⟩ := h
  exact takeBytes_append _ _

theorem isBoundary_of_pref {p s : List Char} (h : ∃ t, s = p ++ t) :
    isBoundary s (byteLen p) = true := by
  obtain ⟨t, rfl⟩ := h
  rw [isBoundary, dropBytes_append]
  rfl

theorem stable_le_left (a b : List Char) : stable_prefix_len a b ≤ byteLen a := by
  rw [stable_prefix_len_eq_lcp]
  exact byteLen_le_of_pref (lcpChars_prefix_left a b)

theorem stable_le_right (a b : List Char) : stable_prefix_len a b ≤ byteLen b := by
  rw [stable_prefix_len_eq_lcp]
  exact byteLen_le_of_pref (lcpChars_prefix_right a b)

theorem takeBytes_stable_left (a b : List Char) :
    takeBytes a (stable_prefix_len a b) = some (lcpChars a b) := by
  rw [stable_prefix_len_eq_lcp]
  exact takeBytes_of_pref (lcpChars_prefix_left a b)

theorem takeBytes_stable_right (a b : List Char) :
    takeBytes b (stable_prefix_len a b) = some (lcpChars a b) := by
  rw [stable_prefix_len_eq_lcp]
  exact takeBytes_of_pref (lcpChars_prefix_right a b)

theorem isBoundary_stable_left (a b : List Char) :
    isBoundary a (stable_prefix_len a b) = true := by
  rw [stable_prefix_len_eq_lcp]
  exact isBoundary_of_pref (lcpChars_prefix_left a b)

theorem isBoundary_stable_right (a b : List Char) :
    isBoundary b (stable_prefix_len a b) = true := by
  rw [stable_prefix_len_eq_lcp]
  exact isBoundary_of_pref (lcpChars_prefix_right a b)

/-- Two boundaries `a ≤ b` of a string always give a well-defined slice
whose byte length is `b - a`. -/
theorem sliceBytes_of_boundaries {s ta pb : List Char} {a b : Nat}
    (hab : a ≤ b) (hd : dropBytes s a = some ta) (ht : takeBytes s b = some pb) :
    ∃ chunk, sliceBytes s a b = some chunk ∧ byteLen chunk = b - a ∧
      takeBytes ta (b - a) = some chunk := by
  obtain ⟨pa, hpa, hlenpa⟩ := dropBytes_some hd
  obtain ⟨tb, htb, hlenpb⟩ := takeBytes_some ht
  have hpre1 : pa <+: s := ⟨ta, hpa.symm⟩
  have hpre2 : pb <+: s := ⟨tb, htb.symm⟩
  rcases List.prefix_or_prefix_of_prefix hpre1 hpre2 with hp | hp
  · obtain ⟨mid, hmid⟩ := hp
    have hlenmid : byteLen mid = b - a := by
      have := byteLen_append pa mid
      rw [hmid] at this
      omega
    have hta : ta = mid ++ tb := by
      have hs : s = pa ++ (mid ++ tb) := by rw [← List.append_assoc, hmid, ← htb]
      have h2 := dropBytes_append pa (mid ++ tb)
      rw [← hs, hlenpa, hd] at h2
      exact Option.some_injective _ h2
    have htake : takeBytes ta (b - a) = some mid := by
      rw [hta, ← hlenmid]
      exact takeBytes_append _ _
    refine ⟨mid, ?_, hlenmid, htake⟩
    rw [sliceBytes, if_pos hab, hd]
    exact htake
  · obtain ⟨mid, hmid⟩ := hp
    have hba : b ≤ a := by
      have := byteLen_append pb mid
      rw [hmid] at this
      omega
    refine ⟨[], ?_, by simp [byteLen]; omega, ?_⟩
    · rw [sliceBytes, if_pos hab, hd]
      rw [show b - a = 0 from by omega]
      exact takeBytes_zero ta
    · rw [show b - a = 0 from by omega]
      exact takeBytes_zero ta

/-! ## The streaming coordinator (`run_worker` in `src/src-tauri/src/lib.rs`)

The worker thread is modelled as a step function over an explicit state.
Externally produced data (recorder creation results, snapshot lengths,
transcription outcomes, file existence, model-load outcomes) is supplied
with each input, mirroring the fact that it comes from the environment.
Calls the worker makes (snapshot, stop, transcribe, `type_text`,
`Transcriber::new`) and events it emits (`status-changed`, `error`) are
recorded as a trace of actions.  A Rust panic (out-of-boundary string
slicing) is modelled by the `crash` result.  -/

/-- `AppStatus` from `lib.rs`. -/
inductive AppStatus
  | Idle
  | Recording
  | Transcribing
deriving DecidableEq, Repr

/-- Payloads of `error` events the worker emits. -/
inductive ErrMsg
  | recorderInit
  | recorderStart
  | transcribeFailed
  | modelNotLoaded
deriving DecidableEq, Repr

/-- Observable actions of the worker, in program order. -/
inductive Act
  | status (s : AppStatus)
  | err (m : ErrMsg)
  | typeText (s : List Char)
  | transcribeCall (audioLen : Nat)
  | loadModel (path : Nat)
  | snapshotCall
  | stopCall
deriving DecidableEq, Repr

/-- Worker-local state of `run_worker` (transcriber ids and model paths are
abstracted as naturals; `tPath` is ghost state recording the path the current
transcriber was loaded from). -/
structure WState where
  transcriber : Option Nat
  tPath : Nat
  recorder : Bool
  prev_text : List Char
  typed_len : Nat
  status : AppStatus
deriving DecidableEq, Repr

/-- `MIN_AUDIO_SAMPLES` from `lib.rs` (1 second at 16 kHz). -/
def MIN_AUDIO_SAMPLES : Nat := 16000

/-- Outcome of `AudioRecorder::new()` followed by `start()`. -/
inductive StartRes
  | newFail
  | startFail
  | okStart
deriving DecidableEq, Repr

/-- One iteration of the worker loop: a received command or a stream-interval
timeout.  `audioLen` is the length of the snapshot the environment would
return, `tr` the transcription outcome (`none` = backend error). -/
inductive WInput
  | toggle (sr : StartRes) (audioLen : Nat) (tr : Option (List Char))
  | tick (audioLen : Nat) (tr : Option (List Char))
  | upd (path : Nat) (pathExists : Bool) (load : Option Nat)
deriving DecidableEq, Repr

/-- Result of one loop iteration: the next state plus emitted actions, or a
panic (with the state and actions at the point of death). -/
inductive StepRes
  | next (st : WState) (acts : List Act)
  | crash (st : WState) (acts : List Act)
deriving DecidableEq, Repr

/-- `Toggle` in `Idle`: try to create and start a recorder. -/
def startStep (st : WState) : StartRes → WState × List Act
  | .newFail => (st, [.err .recorderInit])
  | .startFail => (st, [.err .recorderStart])
  | .okStart =>
    ({ st with recorder := true, prev_text := [], typed_len := 0, status := .Recording },
     [.status .Recording])

/-- Session reset done at the end of `Toggle` in `Recording`. -/
def resetSt (st : WState) : WState :=
  { st with recorder := false, prev_text := [], typed_len := 0, status := .Idle }

/-- `Toggle` in `Recording`: publish `Transcribing`, snapshot, stop, run the
final transcription pass when long enough, flush the remaining suffix, reset. -/
def stopStep (st : WState) (audioLen : Nat) (tr : Option (List Char)) : StepRes :=
  if st.recorder then
    if audioLen ≥ MIN_AUDIO_SAMPLES then
      match st.transcriber with
      | some _ =>
        match tr with
        | some text =>
          if byteLen text > st.typed_len then
            match dropBytes text st.typed_len with
            | none =>
              .crash { st with status := .Transcribing }
                [.status .Transcribing, .snapshotCall, .stopCall,
                 .transcribeCall audioLen]
            | some remaining =>
              .next (resetSt st)
                ([.status .Transcribing, .snapshotCall, .stopCall,
                  .transcribeCall audioLen] ++
                 (if remaining = [] then [] else [.typeText remaining]) ++
                 [.status .Idle])
          else
            .next (resetSt st)
              [.status .Transcribing, .snapshotCall, .stopCall,
               .transcribeCall audioLen, .status .Idle]
        | none =>
          .next (resetSt st)
            [.status .Transcribing, .snapshotCall, .stopCall,
             .transcribeCall audioLen, .err .transcribeFailed, .status .Idle]
      | none =>
        .next (resetSt st)
          [.status .Transcribing, .snapshotCall, .stopCall, .status .Idle]
    else
      .next (resetSt st)
        [.status .Transcribing, .snapshotCall, .stopCall, .status .Idle]
  else
    .next (resetSt st) [.status .Transcribing, .status .Idle]

/-- The streaming transcription tick (`RecvTimeoutError::Timeout` branch). -/
def tickStep (st : WState) (audioLen : Nat) (tr : Option (List Char)) : StepRes :=
  if st.recorder then
    if audioLen < MIN_AUDIO_SAMPLES then
      .next st [.snapshotCall]
    else
      match st.transcriber with
      | some _ =>
        match tr with
        | some curr =>
          if stable_prefix_len st.prev_text curr > st.typed_len then
            match sliceBytes curr st.typed_len (stable_prefix_len st.prev_text curr) with
            | none => .crash st [.snapshotCall, .transcribeCall audioLen]
            | some new_text =>
              if new_text = [] then
                .next { st with prev_text := curr }
                  [.snapshotCall, .transcribeCall audioLen]
              else
                .next { st with typed_len := stable_prefix_len st.prev_text curr,
                                prev_text := curr }
                  [.snapshotCall, .transcribeCall audioLen, .typeText new_text]
          else
            .next { st with prev_text := curr }
              [.snapshotCall, .transcribeCall audioLen]
        | none =>
          .next st [.snapshotCall, .transcribeCall audioLen]
      | none =>
        .next st [.snapshotCall, .err .modelNotLoaded]
  else
    .next st []

/-- `UpdateSettings` handling: reload the model whenever the path exists. -/
def updStep (st : WState) (path : Nat) (pathExists : Bool) (load : Option Nat) :
    WState × List Act :=
  if pathExists then
    match load with
    | some t => ({ st with transcriber := some t, tPath := path }, [.loadModel path])
    | none => (st, [.loadModel path])
  else
    (st, [])

/-- One iteration of the worker loop. -/
def step (st : WState) : WInput → StepRes
  | .toggle sr audioLen tr =>
    match st.status with
    | .Idle => let r := startStep st sr; .next r.1 r.2
    | .Recording => stopStep st audioLen tr
    | .Transcribing => .next st []
  | .tick audioLen tr => tickStep st audioLen tr
  | .upd path pathExists load => let r := updStep st path pathExists load; .next r.1 r.2

/-- Result of running the worker over a list of inputs. -/
inductive RunRes
  | done (st : WState) (acts : List Act)
  | crashed (st : WState) (acts : List Act)
deriving DecidableEq, Repr

def run (st : WState) : List WInput → RunRes
  | [] => .done st []
  | i :: is =>
    match step st i with
    | .next st' a =>
      match run st' is with
      | .done st2 a2 => .done st2 (a ++ a2)
      | .crashed st2 a2 => .crashed st2 (a ++ a2)
    | .crash stc a => .crashed stc a

def actsOf : RunRes → List Act
  | .done _ a => a
  | .crashed _ a => a

def stateOf : RunRes → WState
  | .done st _ => st
  | .crashed st _ => st

/-- Worker state right after startup, given the initial model-load outcome. -/
def initSt (t : Option Nat) (p : Nat) : WState :=
  ⟨t, p, false, [], 0, .Idle⟩

/-- Concatenation of all arguments passed to `type_text` in a trace. -/
def typedOf : List Act → List Char
  | [] => []
  | .typeText s :: rest => s ++ typedOf rest
  | _ :: rest => typedOf rest

/-- The `status-changed` events of a trace. -/
def statusActs : List Act → List AppStatus
  | [] => []
  | .status s :: rest => s :: statusActs rest
  | _ :: rest => statusActs rest

/-- Whether the worker survived the whole input list. -/
def isDone : RunRes → Bool
  | .done _ _ => true
  | .crashed _ _ => false

/-! ### Concrete session traces used as counterexamples -/

def sHello : List Char := ['H', 'e', 'l', 'l', 'o']
def sHelloBang : List Char := ['H', 'e', 'l', 'l', 'o', '!']
def sHelloWorld : List Char := ['H', 'e', 'l', 'l', 'o', ' ', 'w', 'o', 'r', 'l', 'd']
def sHelpMe : List Char := ['H', 'e', 'l', 'p', ' ', 'm', 'e']
def sHelpMeNow : List Char := ['H', 'e', 'l', 'p', ' ', 'm', 'e', ' ', 'n', 'o', 'w']
def sWorld : List Char := ['W', 'o', 'r', 'l', 'd']
def sWorldBang : List Char := ['W', 'o', 'r', 'l', 'd', '!']
def sAbcda : List Char := ['a', 'b', 'c', 'd', 'ą']
def sAbcdaq : List Char := ['a', 'b', 'c', 'd', 'ą', 'q']
def sAbcdef : List Char := ['a', 'b', 'c', 'd', 'ę', 'f']

/-- A session whose ticks see `"Hello"`, `"Hello world"`, `"Help me"` and whose
final pass returns `"Help me now"`. -/
def c1Inputs : List WInput :=
  [ .toggle .okStart 0 none,
    .tick 16000 (some sHello),
    .tick 16000 (some sHelloWorld),
    .tick 16000 (some sHelpMe),
    .toggle .okStart 16000 (some sHelpMeNow) ]

def c1Typed : List Char := ['H', 'e', 'l', 'l', 'o', 'm', 'e', ' ', 'n', 'o', 'w']

/-- Ticks `"Hello"`, `"Hello!"` reach `typed_len = 5`; then ticks `"abcdą"`,
`"abcdąq"` agree on 6 bytes, and byte 5 of `"abcdąq"` splits `'ą'`. -/
def c3Pre : List WInput :=
  [ .toggle .okStart 0 none,
    .tick 16000 (some sHello),
    .tick 16000 (some sHelloBang),
    .tick 16000 (some sAbcda) ]

def c3St : WState :=
  ⟨some 0, 0, true, sAbcda, 5, .Recording⟩

/-- Ticks `"World"`, `"World!"` reach `typed_len = 5`; the final pass returns
`"abcdęf"`, whose byte 5 splits `'ę'`. -/
def c4Inputs : List WInput :=
  [ .toggle .okStart 0 none,
    .tick 16000 (some sWorld),
    .tick 16000 (some sWorldBang),
    .toggle .okStart 16000 (some sAbcdef) ]

/-- Ticks `"Hello"`, `"Hello!"` reach `typed_len = 5`; the final pass returns
`"abcdąq"`, whose byte 5 splits `'ą'`. -/
def c5Inputs : List WInput :=
  [ .toggle .okStart 0 none,
    .tick 16000 (some sHello),
    .tick 16000 (some sHelloBang),
    .toggle .okStart 16000 (some sAbcdaq) ]

/-- A full session run with no model loaded and ≥ `MIN_AUDIO_SAMPLES` of audio
at the final stop. -/
def c8Inputs : List WInput :=
  [ .toggle .okStart 0 none,
    .toggle .okStart 16000 none ]

/-- **C1, counterexample.**  In the session `c1Inputs` the worker completes
normally, the concatenation of all `type_text` arguments is `"Hellome now"`,
and that is a prefix neither of the final transcript `"Help me now"` nor of
the last streaming transcript `"Help me"`. -/
theorem C1_counterexample :
    isDone (run (initSt (some 0) 0) c1Inputs) = true ∧
    typedOf (actsOf (run (initSt (some 0) 0) c1Inputs)) = c1Typed ∧
    c1Typed.isPrefixOf sHelpMeNow = false ∧
    c1Typed.isPrefixOf sHelpMe = false := by
  decide

/-- **C3, counterexample.**  A reachable Recording state with `typed_len = 5`
and a tick transcript agreeing with `prev_text` on `stable = 6 > 5` bytes, on
which the tick emits nothing, updates nothing, and kills the worker (byte 5 is
not a character boundary of the new transcript). -/
theorem C3_counterexample :
    stateOf (run (initSt (some 0) 0) c3Pre) = c3St ∧
    isDone (run (initSt (some 0) 0) c3Pre) = true ∧
    c3St.typed_len = 5 ∧
    stable_prefix_len c3St.prev_text sAbcdaq = 6 ∧
    step c3St (.tick 16000 (some sAbcdaq)) =
      .crash c3St [.snapshotCall, .transcribeCall 16000] := by
  decide

/-- **C4, counterexample.**  A stop whose final transcript is longer than
`typed_len` but has no character boundary at `typed_len`: the worker dies
after publishing `Transcribing`; the recorder is not dropped, the session
state is not reset and status `Idle` is never published. -/
theorem C4_counterexample :
    isDone (run (initSt (some 0) 0) c4Inputs) = false ∧
    statusActs (actsOf (run (initSt (some 0) 0) c4Inputs)) =
      [.Recording, .Transcribing] ∧
    (stateOf (run (initSt (some 0) 0) c4Inputs)).status = .Transcribing ∧
    (stateOf (run (initSt (some 0) 0) c4Inputs)).recorder = true := by
  decide

/-- **C5.**  The out-of-boundary branch of the finalization slice is
reachable: after the session prefix of `c5Inputs`, `typed_len = 5`, the final
transcript `"abcdąq"` is longer than 5 bytes, byte 5 is not a character
boundary of it, `final_text[typed_len..]` is undefined (Rust panics), and the
worker run crashes. -/
theorem C5_crash_reachable :
    byteLen sAbcdaq > 5 ∧
    isBoundary sAbcdaq 5 = false ∧
    dropBytes sAbcdaq 5 = none ∧
    (stateOf (run (initSt (some 0) 0) c5Inputs)).typed_len = 5 ∧
    isDone (run (initSt (some 0) 0) c5Inputs) = false := by
  decide

/-- **C7, counterexample.**  `UpdateSettings` whose `model_path` equals the
path the current model was loaded from (`tPath = 7`) still constructs a new
`Transcriber` (a `loadModel` action is performed) and replaces the held one. -/
theorem C7_counterexample :
    (initSt (some 5) 7).tPath = 7 ∧
    step (initSt (some 5) 7) (.upd 7 true (some 6)) =
      .next (initSt (some 6) 7) [.loadModel 7] ∧
    (initSt (some 6) 7).transcriber ≠ (initSt (some 5) 7).transcriber := by
  decide

/-- **C8, counterexample.**  A final stop with ≥ `MIN_AUDIO_SAMPLES` samples
and no loaded model emits no `error` event at all (the spec expects a
model-not-loaded error); the session still returns to `Idle`. -/
theorem C8_counterexample :
    run (initSt none 0) c8Inputs =
      .done (initSt none 0)
        [.status .Recording, .status .Transcribing, .snapshotCall, .stopCall,
         .status .Idle] ∧
    Act.err .modelNotLoaded ∉ actsOf (run (initSt none 0) c8Inputs) := by
  decide

/-! ### Claim theorems -/

/-- **C2.**  `stable_prefix_len` returns the UTF-8 byte length of the longest
common code-point prefix (walked in lockstep from the start, stopping at the
first mismatch); the result is at most `min (byteLen a) (byteLen b)` and is a
valid UTF-8 split point (character boundary) of both strings. -/
theorem C2_stable_common (a b : List Char) :
    stable_prefix_len a b = byteLen (lcpChars a b) ∧
    stable_prefix_len a b ≤ min (byteLen a) (byteLen b) ∧
    isBoundary a (stable_prefix_len a b) = true ∧
    isBoundary b (stable_prefix_len a b) = true :=
  ⟨stable_prefix_len_eq_lcp a b,
   le_min (stable_le_left a b) (stable_le_right a b),
   isBoundary_stable_left a b,
   isBoundary_stable_right a b⟩

/-- **C7, amended.**  `UpdateSettings` reloads the model whenever the new path
refers to an existing file, even when it equals the current model's path: a
new `Transcriber` is constructed, replacing the held one on success and
leaving it on failure.  Only a non-existing path leaves the transcriber
untouched with no construction attempted. -/
theorem C7_update_amended (st : WState) (p : Nat) (load : Option Nat) :
    (step st (.upd p false load) = .next st []) ∧
    (step st (.upd p true none) = .next st [.loadModel p]) ∧
    (∀ t, step st (.upd p true (some t)) =
      .next { st with transcriber := some t, tPath := p } [.loadModel p]) := by
  refine ⟨?_, ?_, fun t => ?_⟩ <;> simp [step, updStep]

/-- **C8, amended.**  When no model is loaded and at least
`MIN_AUDIO_SAMPLES` samples are available, a streaming tick emits an `error`
event with a model-not-loaded message and the session continues unchanged;
the final stop pass, however, emits no error: it silently skips transcription
and completes the normal transition to `Idle`. -/
theorem C8_no_model_amended (st : WState) (sr : StartRes) (n : Nat)
    (tr : Option (List Char)) (htr : st.transcriber = none) :
    (st.recorder = true → MIN_AUDIO_SAMPLES ≤ n →
      step st (.tick n tr) = .next st [.snapshotCall, .err .modelNotLoaded]) ∧
    (st.status = .Recording → st.recorder = true →
      step st (.toggle sr n tr) = .next (resetSt st)
        [.status .Transcribing, .snapshotCall, .stopCall, .status .Idle]) := by
  constructor
  · intro hrec hn
    simp [step, tickStep, hrec, htr, Nat.not_lt.mpr hn]
  · intro hst hrec
    have h1 : ({ st with status := AppStatus.Transcribing } : WState).recorder = true := hrec
    simp only [step, hst, stopStep, h1, if_true]
    by_cases hn : n ≥ MIN_AUDIO_SAMPLES
    · simp [hn, htr, hrec, resetSt]
    · simp [hn, hrec, resetSt]

theorem isBoundary_some {s : List Char} {n : Nat} (h : isBoundary s n = true) :
    ∃ t, dropBytes s n = some t := by
  rw [isBoundary, Option.isSome_iff_exists] at h
  exact h

/-- **C3, amended.**  A streaming tick on audio shorter than
`MIN_AUDIO_SAMPLES` is skipped, leaving `prev_text` and `typed_len`
unchanged.  Otherwise, on a successful transcription `curr`, *provided*
`typed_len` is a character boundary of `curr`: the worker emits
`curr[typed_len..stable]` (a nonempty chunk) and sets `typed_len = stable`
iff `stable > typed_len`, and in either case sets `prev_text = curr`.
(Without the boundary proviso the emission attempt aborts the worker, see the
counterexample.)  Two transcripts disagreeing at the first code point always
give `stable = 0`. -/
theorem C3_tick_amended (st : WState) (n : Nat) (tr : Option (List Char))
    (curr : List Char) (tid : Nat) (hrec : st.recorder = true) :
    (n < MIN_AUDIO_SAMPLES → step st (.tick n tr) = .next st [.snapshotCall]) ∧
    (MIN_AUDIO_SAMPLES ≤ n → st.transcriber = some tid → tr = some curr →
      isBoundary curr st.typed_len = true →
      (stable_prefix_len st.prev_text curr > st.typed_len →
        (sliceBytes curr st.typed_len (stable_prefix_len st.prev_text curr)).isSome
          = true ∧
        (sliceBytes curr st.typed_len (stable_prefix_len st.prev_text curr)).getD []
          ≠ [] ∧
        step st (.tick n tr) =
          .next { st with typed_len := stable_prefix_len st.prev_text curr,
                          prev_text := curr }
            [.snapshotCall, .transcribeCall n,
             .typeText ((sliceBytes curr st.typed_len
               (stable_prefix_len st.prev_text curr)).getD [])]) ∧
      (¬ stable_prefix_len st.prev_text curr > st.typed_len →
        step st (.tick n tr) =
          .next { st with prev_text := curr } [.snapshotCall, .transcribeCall n])) ∧
    (∀ a as b bs, a ≠ b → stable_prefix_len (a :: as) (b :: bs) = 0) := by
  refine ⟨?_, ?_, ?_⟩
  · intro hn
    simp [step, tickStep, hrec, hn]
  · intro hn htid htr hbnd
    have hn' : ¬ n < MIN_AUDIO_SAMPLES := Nat.not_lt.mpr hn
    constructor
    · intro hgt
      obtain ⟨ta, hta⟩ := isBoundary_some hbnd
      have htk := takeBytes_stable_right st.prev_text curr
      obtain ⟨chunk, hslice, hlen, -⟩ :=
        sliceBytes_of_boundaries (Nat.le_of_lt hgt) hta htk
      have hchunk : chunk ≠ [] := by
        intro hc
        rw [hc] at hlen
        simp [byteLen] at hlen
        omega
      refine ⟨by rw [hslice]; rfl, by rw [hslice]; simpa using hchunk, ?_⟩
      subst htr
      simp only [step, tickStep, hrec, if_true, hn', if_false, htid]
      rw [hslice]
      simp [hgt, hchunk]
    · intro hle
      subst htr
      simp only [step, tickStep, hrec, if_true, hn', if_false, htid]
      simp [hle]
  · intro a as b bs hab
    simp [stable_prefix_len, hab]

/-- **C4, amended.**  `Toggle` in `Recording` publishes `Transcribing`,
snapshots the buffer, then stops the recorder.  With at least
`MIN_AUDIO_SAMPLES` samples and a loaded model it runs one transcription
pass; when the successful result `f` is longer than `typed_len` — *provided*
byte index `typed_len` is a character boundary of `f` (otherwise the worker
aborts, see the counterexample) — it emits the nonempty suffix
`f[typed_len..]`.  With a shorter snapshot no transcription is run and
nothing is emitted.  In these cases the recorder is dropped, the session
state (`prev_text`, `typed_len`) is reset and status `Idle` is published. -/
theorem C4_stop_amended (st : WState) (sr : StartRes) (n : Nat) (f : List Char)
    (tid : Nat) (hst : st.status = .Recording) (hrec : st.recorder = true) :
    (MIN_AUDIO_SAMPLES ≤ n → st.transcriber = some tid →
      (byteLen f > st.typed_len → isBoundary f st.typed_len = true →
        (dropBytes f st.typed_len).getD [] ≠ [] ∧
        step st (.toggle sr n (some f)) = .next (resetSt st)
          [.status .Transcribing, .snapshotCall, .stopCall, .transcribeCall n,
           .typeText ((dropBytes f st.typed_len).getD []), .status .Idle]) ∧
      (byteLen f ≤ st.typed_len →
        step st (.toggle sr n (some f)) = .next (resetSt st)
          [.status .Transcribing, .snapshotCall, .stopCall, .transcribeCall n,
           .status .Idle])) ∧
    (n < MIN_AUDIO_SAMPLES →
      step st (.toggle sr n (some f)) = .next (resetSt st)
        [.status .Transcribing, .snapshotCall, .stopCall, .status .Idle]) := by
  constructor
  · intro hn htid
    have hn' : n ≥ MIN_AUDIO_SAMPLES := hn
    constructor
    · intro hgt hbnd
      obtain ⟨rem, hrem⟩ := isBoundary_some hbnd
      obtain ⟨p, hp, hlenp⟩ := dropBytes_some hrem
      have hlenf : byteLen f = st.typed_len + byteLen rem := by
        rw [hp, byteLen_append, hlenp]
      have hremne : rem ≠ [] := by
        intro hc
        rw [hc] at hlenf
        simp [byteLen] at hlenf
        omega
      constructor
      · rw [hrem]
        simpa using hremne
      · simp only [step, hst, stopStep, hrec, if_true, if_pos, htid]
        rw [hrem]
        simp [hgt, hn', hremne, resetSt]
    · intro hle
      have hngt : ¬ byteLen f > st.typed_len := Nat.not_lt.mpr hle
      simp only [step, hst, stopStep, hrec, if_true, htid]
      simp [hn', hngt, resetSt]
  · intro hn
    have hn' : ¬ n ≥ MIN_AUDIO_SAMPLES := Nat.not_le.mpr hn
    simp only [step, hst, stopStep, hrec, if_true]
    simp [hn', resetSt]

/-! ### Phase-sequence automaton for C9 -/

/-- Runs the `Recording → Transcribing → Idle` cycle automaton over a status
sequence; `none` means the sequence is not a prefix of repeated cycles. -/
def phaseRun : AppStatus → List AppStatus → Option AppStatus
  | s, [] => some s
  | .Idle, .Recording :: r => phaseRun .Recording r
  | .Recording, .Transcribing :: r => phaseRun .Transcribing r
  | .Transcribing, .Idle :: r => phaseRun .Idle r
  | _, _ :: _ => none

/-- A status sequence is a prefix of repeated `Recording Transcribing Idle`
cycles starting from phase `s`. -/
def phaseOk (s : AppStatus) (l : List AppStatus) : Bool :=
  (phaseRun s l).isSome

theorem phaseRun_nil (s : AppStatus) : phaseRun s [] = some s := by
  cases s <;> rfl

theorem phaseRun_append (s : AppStatus) (l1 l2 : List AppStatus) :
    phaseRun s (l1 ++ l2) = (phaseRun s l1).bind (fun s2 => phaseRun s2 l2) := by
  induction l1 generalizing s with
  | nil => simp [phaseRun_nil]
  | cons h t ih => cases s <;> cases h <;> simp [phaseRun, ih]

theorem statusActs_append (a b : List Act) :
    statusActs (a ++ b) = statusActs a ++ statusActs b := by
  induction a with
  | nil => rfl
  | cons x t ih => cases x <;> simp [statusActs, ih]

theorem tickStep_phase (st : WState) (n : Nat) (tr : Option (List Char)) :
    (∀ s2 a, tickStep st n tr = .next s2 a →
      statusActs a = [] ∧ s2.status = st.status) ∧
    (∀ sc a, tickStep st n tr = .crash sc a → statusActs a = []) := by
  constructor <;>
  · intro s2 a h
    unfold tickStep at h
    repeat' split at h
    all_goals
      first
        | (injection h with h1 h2; subst h1; subst h2; simp [statusActs])
        | (exact absurd h (by simp))

theorem stopStep_phase (st : WState) (n : Nat) (tr : Option (List Char)) :
    (∀ s2 a, stopStep st n tr = .next s2 a →
      statusActs a = [.Transcribing, .Idle] ∧ s2.status = .Idle) ∧
    (∀ sc a, stopStep st n tr = .crash sc a →
      statusActs a = [.Transcribing]) := by
  constructor <;>
  · intro s2 a h
    unfold stopStep at h
    repeat' split at h
    all_goals
      first
        | (injection h with h1 h2; subst h1; subst h2;
           simp [statusActs, statusActs_append, resetSt])
        | (exact absurd h (by simp))

theorem step_next_phase {st : WState} {i : WInput} {s2 : WState} {a : List Act}
    (h : step st i = .next s2 a) :
    phaseRun st.status (statusActs a) = some s2.status := by
  cases i with
  | toggle sr n tr =>
    cases hst : st.status with
    | Idle =>
      rw [step, hst] at h
      cases sr <;>
        (injection h with h1 h2; subst h1; subst h2;
         simp [startStep, statusActs, phaseRun, hst])
    | Recording =>
      rw [step, hst] at h
      obtain ⟨ha, hs⟩ := (stopStep_phase st n tr).1 s2 a h
      rw [ha, hs]
      rfl
    | Transcribing =>
      rw [step, hst] at h
      injection h with h1 h2
      subst h1; subst h2
      simp [statusActs, phaseRun_nil, hst]
  | tick n tr =>
    obtain ⟨ha, hs⟩ := (tickStep_phase st n tr).1 s2 a h
    rw [ha, hs, phaseRun_nil]
  | upd p ex load =>
    rw [step] at h
    have hcases :
        statusActs a = [] ∧ s2.status = st.status := by
      unfold updStep at h
      repeat' split at h
      all_goals
        injection h with h1 h2
        subst h1; subst h2
        simp [statusActs]
    obtain ⟨ha, hs⟩ := hcases
    rw [ha, hs, phaseRun_nil]

theorem step_crash_phase {st : WState} {i : WInput} {sc : WState} {a : List Act}
    (h : step st i = .crash sc a) :
    phaseOk st.status (statusActs a) = true := by
  cases i with
  | toggle sr n tr =>
    cases hst : st.status with
    | Idle =>
      rw [step, hst] at h
      exact absurd h (by cases sr <;> simp [startStep])
    | Recording =>
      rw [step, hst] at h
      have ha := (stopStep_phase st n tr).2 sc a h
      simp [phaseOk, ha, phaseRun]
    | Transcribing =>
      rw [step, hst] at h
      exact absurd h (by simp)
  | tick n tr =>
    have ha := (tickStep_phase st n tr).2 sc a h
    rw [phaseOk, ha, phaseRun_nil]
    rfl
  | upd p ex load =>
    rw [step] at h
    exact absurd h (by simp)

theorem run_phase (ins : List WInput) : ∀ st : WState,
    phaseOk st.status (statusActs (actsOf (run st ins))) = true := by
  induction ins with
  | nil =>
    intro st
    simp [run, actsOf, statusActs, phaseOk, phaseRun_nil]
  | cons i is ih =>
    intro st
    cases hstep : step st i with
    | next st2 a =>
      have hph := step_next_phase hstep
      have hih := ih st2
      cases hrun : run st2 is with
      | done st3 a2 =>
        rw [hrun] at hih
        simp only [run, hstep, hrun, actsOf] at *
        rw [statusActs_append, phaseOk, phaseRun_append, hph]
        exact hih
      | crashed st3 a2 =>
        rw [hrun] at hih
        simp only [run, hstep, hrun, actsOf] at *
        rw [statusActs_append, phaseOk, phaseRun_append, hph]
        exact hih
    | crash stc a =>
      have := step_crash_phase hstep
      simp only [run, hstep, actsOf]
      exact this

/-- **C9.**  (i) For every startup state and input sequence, the sequence of
`status-changed` events of the whole run is a prefix of repeated
`Recording Transcribing Idle` cycles starting from `Idle` — so within one
session the events are exactly `Recording`, then `Transcribing`, then `Idle`,
and `Idle → Transcribing` never happens without an intervening `Recording`.
(ii) A `Toggle` received while the phase is `Transcribing` causes no state
change and emits no event at all. -/
theorem C9_phase_shape :
    (∀ (t : Option Nat) (p : Nat) (ins : List WInput),
      phaseOk .Idle (statusActs (actsOf (run (initSt t p) ins))) = true) ∧
    (∀ (tr : Option Nat) (tp : Nat) (rec : Bool) (pt : List Char) (tl : Nat)
       (sr : StartRes) (n : Nat) (o : Option (List Char)),
      step ⟨tr, tp, rec, pt, tl, .Transcribing⟩ (.toggle sr n o) =
        .next ⟨tr, tp, rec, pt, tl, .Transcribing⟩ []) := by
  constructor
  · intro t p ins
    exact run_phase ins (initSt t p)
  · intro tr tp rec pt tl sr n o
    rfl

theorem typedOf_append (a b : List Act) :
    typedOf (a ++ b) = typedOf a ++ typedOf b := by
  induction a with
  | nil => rfl
  | cons x t ih => cases x <;> simp [typedOf, ih]

theorem isPrefixOf_of_append (p t : List Char) :
    p.isPrefixOf (p ++ t) = true := by
  rw [List.isPrefixOf_iff_prefix]
  exact ⟨t, rfl⟩

/-- Inputs that are not `Toggle` commands (they stay within one session). -/
def noToggle : WInput → Bool
  | .toggle _ _ _ => false
  | _ => true

/-- **C1, amended.**  For a session — start toggle, toggle-free middle
inputs, then the stop toggle with a successful final transcription `f` —
*if* `f` agrees with the text already emitted during the session on its
first `typed_len` bytes, then the concatenation of all `type_text` arguments
of the whole session is a prefix of `f`.  (Without the agreement hypothesis
the property fails; see the counterexample.) -/
theorem C1_session_agree (t0 : Option Nat) (p0 : Nat) (mids : List WInput)
    (hmids : ∀ i ∈ mids, noToggle i = true)
    (st1 : WState) (acts1 : List Act)
    (h1 : run (initSt t0 p0) (.toggle .okStart 0 none :: mids) = .done st1 acts1)
    (f : List Char)
    (hagree : takeBytes f st1.typed_len = some (typedOf acts1))
    (sr : StartRes) (n : Nat) (st2 : WState) (acts2 : List Act)
    (h2 : step st1 (.toggle sr n (some f)) = .next st2 acts2) :
    (typedOf (acts1 ++ acts2)).isPrefixOf f = true := by
  obtain ⟨rest, hf, hbl⟩ := takeBytes_some hagree
  have hdrop : dropBytes f st1.typed_len = some rest := by
    rw [hf, ← hbl]
    exact dropBytes_append _ _
  have key : typedOf acts2 = [] ∨ typedOf acts1 ++ typedOf acts2 = f := by
    cases hst : st1.status with
    | Idle =>
      cases sr <;>
      · simp only [step, hst, startStep, StepRes.next.injEq] at h2
        obtain ⟨-, h2'⟩ := h2
        left
        rw [← h2']
        rfl
    | Transcribing =>
      simp only [step, hst, StepRes.next.injEq] at h2
      obtain ⟨-, h2'⟩ := h2
      left
      rw [← h2']
      rfl
    | Recording =>
      simp only [step, hst] at h2
      unfold stopStep at h2
      simp only [] at h2
      rw [hdrop] at h2
      simp only [] at h2
      repeat' split at h2
      all_goals
        first
          | (exact StepRes.noConfusion h2)
          | (injection h2 with e1 e2; left; rw [← e2]; rfl)
          | (injection h2 with e1 e2; left; rw [← e2]
             simp [typedOf, typedOf_append]
             done)
          | (injection h2 with e1 e2; right; rw [← e2, hf]
             simp [typedOf, typedOf_append]
             done)
  rcases key with hk | hk
  · rw [typedOf_append, hk, List.append_nil, hf]
    exact isPrefixOf_of_append _ _
  · rw [typedOf_append, hk]
    have := isPrefixOf_of_append f []
    rwa [List.append_nil] at this

/-! ### The audio capture buffer (`src/src-tauri/src/audio.rs`)

Sample values are represented as rationals (the claims checked here do not
depend on floating-point rounding of individual sample values). -/

/-- `AudioRecorder` state from `audio.rs`: the shared sample buffer and the
device sample rate. -/
structure AudioRecorder where
  samples : List ℚ
  device_sample_rate : Nat
deriving DecidableEq

/-- `TARGET_SAMPLE_RATE` from `audio.rs`. -/
def TARGET_SAMPLE_RATE : Nat := 16000

/-- Modelled from the spec (§4.1 Resampling): linear interpolation between
the two nearest source samples, output length `⌊len · to / from⌋`, clamping
to the last sample at the tail.  (The `resample` in `audio.rs` computes this
with `f64` arithmetic; this rational version is used only to model the
missing `snapshot` method.) -/
def resampleQ (input : List ℚ) (fromRate toRate : Nat) : List ℚ :=
  (List.range (input.length * toRate / fromRate)).map fun i =>
    let k := i * fromRate / toRate
    let f : ℚ := ((i * fromRate : Nat) : ℚ) / ((toRate : Nat) : ℚ) - ((k : Nat) : ℚ)
    if k + 1 < input.length then
      input.getD k 0 * (1 - f) + input.getD (k + 1) 0 * f
    else
      input.getD (min k (input.length - 1)) 0

/-- Modelled from the spec: `AudioRecorder::snapshot` is called by the
coordinator in `lib.rs` but its definition is missing from the provided
sources (`audio.rs` only defines `new`, `start`, `stop`).  Spec §4.1:
"return a copy of all samples captured so far, resampled to 16 kHz if the
device rate differs.  Non-destructive; may be called any number of times
while recording." -/
def snapshot (r : AudioRecorder) : List ℚ × AudioRecorder :=
  ((if r.device_sample_rate = TARGET_SAMPLE_RATE then r.samples
    else resampleQ r.samples r.device_sample_rate TARGET_SAMPLE_RATE), r)

/-- The driver-owned callback of `audio.rs` appends captured (downmixed)
samples to the shared buffer. -/
def capture (r : AudioRecorder) (xs : List ℚ) : AudioRecorder :=
  { r with samples := r.samples ++ xs }

/-- **C10.**  `snapshot` returns the samples captured so far, resampled to
16 kHz when the device rate differs, leaves the recorder state unchanged
(non-destructive), and is idempotent: a second snapshot with no intervening
capture returns the same sequence — while an intervening capture extends the
buffer rather than replacing it. -/
theorem C10_snapshot_spec (r : AudioRecorder) :
    ((snapshot r).2 = r) ∧
    ((snapshot r).1 =
      if r.device_sample_rate = TARGET_SAMPLE_RATE then r.samples
      else resampleQ r.samples r.device_sample_rate TARGET_SAMPLE_RATE) ∧
    ((snapshot ((snapshot r).2)).1 = (snapshot r).1) ∧
    (∀ xs, (capture r xs).samples = r.samples ++ xs) :=
  ⟨rfl, rfl, rfl, fun _ => rfl⟩

/-! ### Witnesses -/

theorem C1_session_agree_w :
    (typedOf ([Act.status .Recording, .snapshotCall, .transcribeCall 16000] ++
        [.status .Transcribing, .snapshotCall, .stopCall, .transcribeCall 16000,
         .typeText ['H', 'i', '!'], .status .Idle])).isPrefixOf ['H', 'i', '!']
      = true := by
  exact C1_session_agree (some 0) 0 [.tick 16000 (some ['H', 'i'])] (by decide)
    ⟨some 0, 0, true, ['H', 'i'], 0, .Recording⟩
    [Act.status .Recording, .snapshotCall, .transcribeCall 16000]
    (by decide) ['H', 'i', '!'] (by decide) .okStart 16000
    (resetSt ⟨some 0, 0, true, ['H', 'i'], 0, .Recording⟩)
    [.status .Transcribing, .snapshotCall, .stopCall, .transcribeCall 16000,
     .typeText ['H', 'i', '!'], .status .Idle]
    (by decide)

theorem C3_tick_amended_w :
    step ⟨some 0, 0, true, ['a'], 0, .Recording⟩ (.tick 16000 (some ['a', 'b'])) =
      .next ⟨some 0, 0, true, ['a', 'b'], 1, .Recording⟩
        [.snapshotCall, .transcribeCall 16000, .typeText ['a']] := by
  exact (((C3_tick_amended ⟨some 0, 0, true, ['a'], 0, .Recording⟩ 16000
    (some ['a', 'b']) ['a', 'b'] 0 rfl).2.1 (by decide) rfl rfl
    (by decide)).1 (by decide)).2.2

theorem C4_stop_amended_w :
    step ⟨some 0, 0, true, ['x'], 0, .Recording⟩
        (.toggle .okStart 16000 (some ['o', 'k'])) =
      .next (resetSt ⟨some 0, 0, true, ['x'], 0, .Recording⟩)
        [.status .Transcribing, .snapshotCall, .stopCall, .transcribeCall 16000,
         .typeText ['o', 'k'], .status .Idle] := by
  exact (((C4_stop_amended ⟨some 0, 0, true, ['x'], 0, .Recording⟩ .okStart 16000
    ['o', 'k'] 0 rfl rfl).1 (by decide) rfl).1 (by decide) (by decide)).2

theorem C8_no_model_amended_w :
    step ⟨none, 0, true, [], 0, .Recording⟩ (.tick 16000 none) =
      .next ⟨none, 0, true, [], 0, .Recording⟩
        [.snapshotCall, .err .modelNotLoaded] := by
  exact (C8_no_model_amended ⟨none, 0, true, [], 0, .Recording⟩ .okStart 16000
    none rfl).1 rfl (by decide)

end VoiceToText
